import Mathlib

/-!
Verification of the spiral-power pipeline of diskpy (diskpy/disk/_spirals.py).

The pipeline bins particle masses into a cylindrical (r, theta) grid, divides
by the polar cell areas to obtain a surface-density grid, reduces it either to
a radius-resolved power profile (angular standard deviation) or to a
mode-resolved power spectrum (real-input DFT along the angular axis), and
optionally repeats this over a time series of snapshots.

Real-valued quantities are embedded as Lean reals; grids are lists of lists.
The external collaborators that live outside the sources at hand
(diskpy.pdmath.bin2dsum, diskpy.pdmath.dA, pynbody.load, centerdisk) are
modelled from the specification's contracts, as flagged in their doc comments.
-/

noncomputable section

namespace Diskpy

/-- A snapshot's gas particles: parallel lists of Cartesian x, y and mass
(the facets of pynbody SimSnap used by this pipeline). -/
structure SimSnap where
  x : List ℝ
  y : List ℝ
  mass : List ℝ

/-- numpy.linspace: num points from a to b inclusive, evenly spaced. -/
def linspace (a b : ℝ) (num : ℕ) : List ℝ :=
  (List.range num).map fun k : ℕ => a + (b - a) * (k : ℝ) / ((num : ℝ) - 1)

/-- Radial edges of spiralpower_t for binspacing = "log":
np.exp(np.linspace(np.log(rmin), np.log(rmax), rbins + 1)). -/
def logspaceEdges (rmin rmax : ℝ) (n : ℕ) : List ℝ :=
  (linspace (Real.log rmin) (Real.log rmax) (n + 1)).map Real.exp

/-- Radial edges of spiralpower_t for binspacing = "linear":
np.linspace(rmin, rmax, rbins + 1). -/
def linearEdges (rmin rmax : ℝ) (n : ℕ) : List ℝ :=
  linspace rmin rmax (n + 1)

/-- Number of histogram cells delimited by an edge sequence. -/
def nbins (edges : List ℝ) : ℕ := edges.length - 1

/-- Index of the histogram cell of the edge sequence that brackets v:
cell i is the half-open interval from edges[i] to edges[i+1], except that the
last cell also contains its right edge (standard numpy histogram semantics). -/
def binIndex : List ℝ → ℝ → Option ℕ
  | [], _ => none
  | [_], _ => none
  | a :: b :: rest, v =>
      if a ≤ v ∧ (v < b ∨ (rest = [] ∧ v = b)) then some 0
      else (binIndex (b :: rest) v).map (· + 1)

/-- Mass accumulated in cell (i, j) of the 2-D weighted histogram of the
particle coordinates xs, ys with weights ws. -/
def histEntry (xs ys ws : List ℝ) (xedges yedges : List ℝ) (i j : ℕ) : ℝ :=
  ((xs.zip (ys.zip ws)).map fun p =>
    if binIndex xedges p.1 = some i ∧ binIndex yedges p.2.1 = some j then p.2.2
    else 0).sum

/-- Modelled from the spec: the external weighted 2-D histogram primitive
bin2dsum of diskpy.pdmath (the weighted_histogram_2d collaborator of spec
section 6): each particle's weight is added to the cell whose edges bracket its
coordinates, particles outside all cells are dropped, and the edge sequences
are returned alongside the summed grid. -/
def bin2dsum (xs ys ws : List ℝ) (xedges yedges : List ℝ) :
    List (List ℝ) × List ℝ × List ℝ :=
  ((List.range (nbins xedges)).map fun i =>
    (List.range (nbins yedges)).map fun j => histEntry xs ys ws xedges yedges i j,
   xedges, yedges)

/-- The polar annulus-sector area of cell (i, j):
(1/2) * (r_(i+1)^2 - r_i^2) * (theta_(j+1) - theta_j). -/
def dAEntry (redges thetaedges : List ℝ) (i j : ℕ) : ℝ :=
  (1 / 2 : ℝ) * ((redges.getD (i + 1) 0) ^ 2 - (redges.getD i 0) ^ 2) *
    (thetaedges.getD (j + 1) 0 - thetaedges.getD j 0)

/-- Modelled from the spec: the external polar-cell area primitive dA of
diskpy.pdmath (the cell_area collaborator of spec section 6): the grid of
annulus-sector areas of all cells of the polar grid. -/
def dA (redges thetaedges : List ℝ) : List (List ℝ) :=
  (List.range (nbins redges)).map fun i =>
    (List.range (nbins thetaedges)).map fun j => dAEntry redges thetaedges i j

/-- Cylindrical radius rxy = sqrt(x^2 + y^2) of every gas particle. -/
def rxyList (f : SimSnap) : List ℝ :=
  (f.x.zip f.y).map fun p => Real.sqrt (p.1 ^ 2 + p.2 ^ 2)

/-- Two-argument arctangent, as numpy's arctan2(y, x). -/
def atan2 (y x : ℝ) : ℝ := Complex.arg ⟨x, y⟩

/-- Python's float modulo: a % b = a - b * floor(a / b), in [0, b) for b > 0. -/
def pymod (a b : ℝ) : ℝ := a - b * ⌊a / b⌋

/-- Angle theta = arctan2(y, x) % (2 pi) of every gas particle. -/
def thetaList (f : SimSnap) : List ℝ :=
  (f.x.zip f.y).map fun p => pymod (atan2 p.2 p.1) (2 * Real.pi)

/-- The thetabins argument of the binning stage: a bin count or explicit
edges. -/
inductive ThetaArg where
  | count (n : ℕ)
  | edges (es : List ℝ)

/-- Resolution of the thetabins argument: an integer count n becomes n + 1
evenly spaced edges over the fixed domain from 0 to 2 pi. -/
def resolveTheta : ThetaArg → List ℝ
  | ThetaArg.count n => linspace 0 (2 * Real.pi) (n + 1)
  | ThetaArg.edges es => es

/-- sigmacylindrical: bins particle masses on the (r, theta) grid, divides by
cell areas, and returns the transposed radius mesh, angle mesh and the
surface-density grid, all indexed so that entry (i, j) refers to radial cell i
and angular cell j. -/
def sigmacylindrical (f : SimSnap) (rbins : List ℝ) (thetabins : ThetaArg) :
    List (List ℝ) × List (List ℝ) × List (List ℝ) :=
  let thetaedges := resolveTheta thetabins
  let t := bin2dsum (rxyList f) (thetaList f) f.mass rbins thetaedges
  let msum := t.1
  let redges := t.2.1
  let tedges := t.2.2
  let sigma := List.zipWith (List.zipWith fun a b => a / b) msum (dA redges tedges)
  (redges.map fun re => tedges.map fun _ => re,
   redges.map fun _ => tedges, sigma)

/-- numpy mean of a list (sum divided by length). -/
def npMean (xs : List ℝ) : ℝ := xs.sum / xs.length

/-- numpy population standard deviation (np.std with ddof = 0):
square root of the mean squared deviation from the mean. -/
def npStd (xs : List ℝ) : ℝ :=
  Real.sqrt (npMean (xs.map fun a => (a - npMean xs) ^ 2))

/-- spiralpower: the radius-resolved spiral power, np.std(sigma, -1) per
radial row, together with the first column of the radial mesh. -/
def spiralpower (f : SimSnap) (rbins : List ℝ) (thetabins : ThetaArg) :
    List ℝ × List ℝ :=
  let s := sigmacylindrical f rbins thetabins
  (s.2.2.map npStd, s.1.map fun row => row.getD 0 0)

/-- Coefficient k of the raw real-input discrete Fourier transform of a row,
as computed by np.fft.rfft: the sum over samples j of
row[j] * exp(-2 pi I j k / n). -/
def dftCoeff (row : List ℝ) (k : ℕ) : ℂ :=
  ((List.range row.length).map fun j =>
    (row.getD j 0 : ℂ) *
      Complex.exp (-(2 * Real.pi * Complex.I) * j * k / row.length)).sum

/-- np.fft.rfft of a real row: the non-negative frequency coefficients
0 .. floor(n/2), n the number of samples. -/
def rfftRow (row : List ℝ) : List ℂ :=
  (List.range (row.length / 2 + 1)).map fun k => dftCoeff row k

/-- sigmafft: real-input DFT of the surface-density grid along the angular
axis, every coefficient divided by (nm - 1) with nm the number of modes
(the spectral grid's row count, sigfft.shape[1]); returns the transposed
radius mesh, the mode mesh and the normalized spectral grid. -/
def sigmafft (f : SimSnap) (rbins : List ℝ) (thetabins : ThetaArg) :
    List (List ℝ) × List (List ℕ) × List (List ℂ) :=
  let s := sigmacylindrical f rbins thetabins
  let nm := nbins (resolveTheta thetabins) / 2 + 1
  let sigfft := s.2.2.map fun row => (rfftRow row).map fun z => z / ((nm : ℂ) - 1)
  let rcol := s.1.map fun row => row.getD 0 0
  let m := List.range nm
  (rcol.map fun re => m.map fun _ => re, rcol.map fun _ => m, sigfft)

/-- powerspectrum: radius-integrated squared magnitude of each angular
Fourier mode, computed from sigmafft with thetabins = 2 * mMax + 1; returns
the mode index row and the per-mode power. -/
def powerspectrum (f : SimSnap) (mMax : ℕ) (rbins : List ℝ) :
    List ℕ × List ℝ :=
  let s := sigmafft f rbins (ThetaArg.count (2 * mMax + 1))
  let m := s.2.1.headD []
  let power := (List.range ((s.2.2.headD []).length)).map fun k =>
    (s.2.2.map fun row => Complex.abs (row.getD k 0) ^ 2).sum
  (m, power)

/-- An element of the flist argument of spiralpower_t: either a filename to
be resolved by the external loader, or an already materialized snapshot. -/
inductive SnapSource where
  | file (name : String)
  | snap (s : SimSnap)

/-- The rbins argument of spiralpower_t: a bin count or explicit edges. -/
inductive RBinsArg where
  | count (n : ℕ)
  | edges (es : List ℝ)

/-- Modelled from the spec: resolution of one snapshot source; a filename is
resolved through the external loader (pynbody.load, closed over the optional
paramname), a materialized snapshot is used as is. -/
def resolveSrc (loader : String → SimSnap) : SnapSource → SimSnap
  | SnapSource.file name => loader name
  | SnapSource.snap s => s

/-- Number of external loader invocations a snapshot source costs. -/
def loadCost : SnapSource → ℕ
  | SnapSource.file _ => 1
  | SnapSource.snap _ => 0

/-- numpy min of a list (the first element for ties; 0 on the empty list,
where numpy would instead raise). -/
def npMin (xs : List ℝ) : ℝ :=
  match xs with
  | [] => 0
  | h :: t => t.foldl min h

/-- numpy max of a list (0 on the empty list, where numpy would raise). -/
def npMax (xs : List ℝ) : ℝ :=
  match xs with
  | [] => 0
  | h :: t => t.foldl max h

/-- Radial limits used by spiralpower_t when rlim is not given: the minimum
and maximum cylindrical radius of the gas of the given snapshot. -/
def derivedLimits (f : SimSnap) : ℝ × ℝ := (npMin (rxyList f), npMax (rxyList f))

/-- The radial edge sequence spiralpower_t builds from a bin count and
resolved limits, for binspacing "log" or "linear". -/
def edgesFor (binspacing : String) (rmin rmax : ℝ) (n : ℕ) : List ℝ :=
  if binspacing = "log" then logspaceEdges rmin rmax n else linearEdges rmin rmax n

/-- Edge setup of spiralpower_t (its lines 57-87): when rbins is a count,
resolve (rmin, rmax) from rlim or from the first list element, then build
log or linear edges, rejecting any other binspacing; also reports the number
of loader invocations this setup performed. -/
def resolveRbins (loader : String → SimSnap) (f0 : SnapSource) (rbins : RBinsArg)
    (binspacing : String) (rlim : Option (ℝ × ℝ)) :
    Except String (List ℝ × ℕ) :=
  match rbins with
  | RBinsArg.edges es => Except.ok (es, 0)
  | RBinsArg.count n =>
      let lims : ℝ × ℝ × ℕ :=
        match rlim with
        | some p => (p.1, p.2, 0)
        | none => ((derivedLimits (resolveSrc loader f0)).1,
                   (derivedLimits (resolveSrc loader f0)).2, loadCost f0)
      if binspacing = "log" then
        Except.ok (logspaceEdges lims.1 lims.2.1 n, lims.2.2)
      else if binspacing = "linear" then
        Except.ok (linearEdges lims.1 lims.2.1 n, lims.2.2)
      else Except.error ("Unrecognized binspacing " ++ binspacing)

/-- Result of the time-series driver: the stacked power rows, the radial
edges the run was binned against, and the total number of external loader
invocations the run performed. -/
structure DriverOut where
  power : List (List ℝ)
  redges : List ℝ
  loadCount : ℕ

/-- spiralpower_t: the time-series driver. Determines whether the list holds
filenames, resolves the radial edges once before the loop (deriving limits
from the first snapshot when rlim is not given), then for each snapshot in
list order resolves it, optionally recenters it through the external
centerdisk collaborator, and computes its spiralpower profile against the
frozen edges. The empty list is the IndexError of flist[0] in the source. -/
def spiralpower_t (loader : String → SimSnap) (centerdisk : SimSnap → SimSnap)
    (flist : List SnapSource) (rbins : RBinsArg) (thetabins : ThetaArg)
    (binspacing : String) (rlim : Option (ℝ × ℝ)) (center : Bool) :
    Except String DriverOut :=
  match flist with
  | [] => Except.error "IndexError"
  | f0 :: rest =>
      match resolveRbins loader f0 rbins binspacing rlim with
      | Except.error e => Except.error e
      | Except.ok er =>
          let work : SnapSource → List ℝ := fun src =>
            let f := resolveSrc loader src
            let f := if center then centerdisk f else f
            (spiralpower f er.1 thetabins).1
          Except.ok
            { power := (f0 :: rest).map work
              redges := er.1
              loadCount := er.2 + ((f0 :: rest).map loadCost).sum }

/-- A power profile as returned per snapshot: its values together with the
optional physical unit tag of the underlying SimArray. -/
structure UnitArr where
  vals : List ℝ
  units : Option String

/-- pynbody.units.has_units: whether an array carries a unit tag. -/
def has_units (a : UnitArr) : Bool := a.units.isSome

/-- The stacked time-series power array with its optional unit tag. -/
structure StackedPower where
  vals : List (List ℝ)
  units : Option String

/-- The stacking step of spiralpower_t (its lines 106-114): if the first
profile carries units, the combined array is stamped with exactly that first
profile's unit tag (the SimArray(power, units) constructor is modelled from
the spec: propagate the tag onto the combined array); otherwise a plain
array is produced. No unit tags other than the first profile's are read. -/
def stackPower (power : List UnitArr) : StackedPower :=
  match power with
  | [] => { vals := [], units := none }
  | p0 :: rest =>
      if has_units p0 then
        { vals := (p0 :: rest).map UnitArr.vals, units := p0.units }
      else
        { vals := (p0 :: rest).map UnitArr.vals, units := none }

/-! ### Helper lemmas -/

/-- zipWith of two pointwise images of one list is the image of the pointwise
combination. -/
theorem zipWith_map_same {α β γ δ : Type} (f : β → γ → δ) (g : α → β) (h : α → γ)
    (l : List α) :
    List.zipWith f (l.map g) (l.map h) = l.map fun x => f (g x) (h x) := by
  induction l with
  | nil => rfl
  | cons a t ih => simp [ih]

/-- Element i of the image of an initial segment of the naturals. -/
theorem getD_range_map {α : Type} (g : ℕ → α) (R i : ℕ) (hi : i < R) (d : α) :
    ((List.range R).map g).getD i d = g i := by
  rw [List.getD_eq_getElem?_getD, List.getElem?_map, List.getElem?_range hi]
  rfl

/-- A list sum over an initial segment of the naturals is the finite sum. -/
theorem sum_range_map (g : ℕ → ℝ) (n : ℕ) :
    ((List.range n).map g).sum = ∑ j ∈ Finset.range n, g j := by
  induction n with
  | zero => simp
  | succ m ih =>
      rw [List.range_succ, List.map_append, List.sum_append, Finset.sum_range_succ, ih]
      simp

/-- A list sum and a finite sum commute. -/
theorem sum_map_finset_sum {α ι : Type} (P : List α) (s : Finset ι) (g : ι → α → ℝ) :
    (P.map fun p => ∑ j ∈ s, g j p).sum = ∑ j ∈ s, (P.map fun p => g j p).sum := by
  induction P with
  | nil => simp
  | cons a t ih => simp [ih, Finset.sum_add_distrib]

/-- A bracketing cell index is always a valid cell index. -/
theorem binIndex_lt_nbins (edges : List ℝ) (v : ℝ) (i : ℕ)
    (h : binIndex edges v = some i) : i < nbins edges := by
  induction edges generalizing i with
  | nil => simp [binIndex] at h
  | cons a t ih =>
      cases t with
      | nil => simp [binIndex] at h
      | cons b rest =>
          rw [binIndex] at h
          by_cases hc : a ≤ v ∧ (v < b ∨ (rest = [] ∧ v = b))
          · rw [if_pos hc] at h
            simp at h
            subst h
            simp [nbins]
          · rw [if_neg hc] at h
            cases hbi : binIndex (b :: rest) v with
            | none => rw [hbi] at h; simp at h
            | some i' =>
                rw [hbi] at h
                simp at h
                have := ih i' hbi
                simp [nbins] at this ⊢
                omega

/-- Summing the indicator of the bracketing angular cell over all angular
cells collapses to the test that the angle is bracketed at all. -/
theorem sum_ite_binIndex (ye : List ℝ) (y w : ℝ) (A : Prop) [Decidable A] :
    (∑ j ∈ Finset.range (nbins ye), if A ∧ binIndex ye y = some j then w else 0) =
      if A ∧ (binIndex ye y).isSome then w else 0 := by
  cases hbi : binIndex ye y with
  | none => simp [hbi]
  | some j0 =>
      have hj0 : j0 ∈ Finset.range (nbins ye) :=
        Finset.mem_range.mpr (binIndex_lt_nbins ye y j0 hbi)
      have hcond : ∀ j : ℕ, (if A ∧ (some j0 = some j) then w else 0) =
          if j = j0 then (if A then w else 0) else 0 := by
        intro j
        by_cases hj : j = j0
        · subst hj; simp
        · have hj' : j0 ≠ j := fun hh => hj hh.symm
          simp [hj, hj']
      rw [Finset.sum_congr rfl fun j _ => hcond j, Finset.sum_ite_eq' (Finset.range (nbins ye)) j0 fun _ => if A then w else 0,
        if_pos hj0]
      by_cases hA : A <;> simp [hA]

/-- The surface-density grid as a grid of entry formulas: mass histogram
entry over cell area. -/
theorem sigma_eq (f : SimSnap) (redges : List ℝ) (θ : ThetaArg) :
    (sigmacylindrical f redges θ).2.2 =
      (List.range (nbins redges)).map fun i =>
        (List.range (nbins (resolveTheta θ))).map fun j =>
          histEntry (rxyList f) (thetaList f) f.mass redges (resolveTheta θ) i j /
            dAEntry redges (resolveTheta θ) i j := by
  simp [sigmacylindrical, bin2dsum, dA, zipWith_map_same]

/-- Strictly increasing evenly spaced points. -/
theorem linspace_chain' (a b : ℝ) (num : ℕ) (hab : a < b) (h2 : 2 ≤ num) :
    (linspace a b num).Chain' (· < ·) := by
  have hd : (0 : ℝ) < (num : ℝ) - 1 := by
    have h2' : (2 : ℝ) ≤ (num : ℝ) := by exact_mod_cast h2
    linarith
  unfold linspace
  rw [List.chain'_map]
  obtain ⟨m, rfl⟩ : ∃ m, num = m + 1 := ⟨num - 1, by omega⟩
  rw [List.chain'_range_succ]
  intro i _
  have hba : (0 : ℝ) < b - a := sub_pos.mpr hab
  have hcast : (i : ℝ) < ((i + 1 : ℕ) : ℝ) := by push_cast; linarith
  have hmul : (b - a) * (i : ℝ) < (b - a) * ((i + 1 : ℕ) : ℝ) :=
    mul_lt_mul_of_pos_left hcast hba
  have := (div_lt_div_iff_of_pos_right hd).mpr hmul
  linarith

/-- The number of points of linspace. -/
theorem linspace_length (a b : ℝ) (num : ℕ) : (linspace a b num).length = num := by
  simp [linspace]

/-- Element extraction through a mapped list. -/
theorem getD_map {α β : Type} (g : α → β) (l : List α) (i : ℕ) (hi : i < l.length)
    (d : α) (d' : β) : (l.map g).getD i d' = g (l.getD i d) := by
  rw [List.getD_eq_getElem?_getD, List.getElem?_map, List.getElem?_eq_getElem hi,
    List.getD_eq_getElem?_getD, List.getElem?_eq_getElem hi]
  rfl

/-- Head of the image of a nonempty initial segment of the naturals. -/
theorem headD_range_map {α : Type} (g : ℕ → α) (R : ℕ) (hR : 0 < R) (d : α) :
    ((List.range R).map g).headD d = g 0 := by
  obtain ⟨m, rfl⟩ : ∃ m, R = m + 1 := ⟨R - 1, by omega⟩
  rw [List.range_succ_eq_map]
  simp

/-- Length of the surface-density grid: one row per radial cell. -/
theorem sigma_length (f : SimSnap) (redges : List ℝ) (θ : ThetaArg) :
    (sigmacylindrical f redges θ).2.2.length = nbins redges := by
  rw [sigma_eq]
  simp

/-- Length of a surface-density row: one entry per angular cell. -/
theorem sigma_row_length (f : SimSnap) (redges : List ℝ) (θ : ThetaArg) (i : ℕ)
    (hi : i < nbins redges) :
    ((sigmacylindrical f redges θ).2.2.getD i []).length = nbins (resolveTheta θ) := by
  rw [sigma_eq, getD_range_map _ _ i hi]
  simp

/-- The numpy population standard deviation of a constant list is zero. -/
theorem npStd_const (xs : List ℝ) (c : ℝ) (h : ∀ x ∈ xs, x = c) : npStd xs = 0 := by
  cases xs with
  | nil => simp [npStd, npMean]
  | cons a t =>
      have hlen : (((a :: t).length : ℕ) : ℝ) ≠ 0 := Nat.cast_ne_zero.mpr (by simp)
      have hsum : (a :: t).sum = (a :: t).length • c := List.sum_eq_card_nsmul _ c h
      have hmean : npMean (a :: t) = c := by
        rw [npMean, hsum, nsmul_eq_mul]
        field_simp
      have hzero : ((a :: t).map fun x => (x - npMean (a :: t)) ^ 2).sum = 0 := by
        apply List.sum_eq_zero
        intro y hy
        rcases List.mem_map.mp hy with ⟨x, hx, rfl⟩
        rw [h x hx, hmean, sub_self]
        ring
      rw [npStd, npMean, hzero, zero_div, Real.sqrt_zero]

/-! ### Claim theorems -/

/-- C2. Spiral power is the population standard deviation along the angular
axis: power_profile[i] is the population standard deviation of row i of the
density grid; in particular a row whose angular cells all hold one value
yields power 0 at that radius. -/
theorem spiralpower_is_angular_std (f : SimSnap) (rbins : List ℝ) (θ : ThetaArg)
    (i : ℕ) (hi : i < nbins rbins) :
    (spiralpower f rbins θ).1.getD i 0 =
      npStd ((sigmacylindrical f rbins θ).2.2.getD i []) ∧
    ∀ c : ℝ, (∀ x ∈ (sigmacylindrical f rbins θ).2.2.getD i [], x = c) →
      (spiralpower f rbins θ).1.getD i 0 = 0 := by
  have hlen : i < (sigmacylindrical f rbins θ).2.2.length := by
    rw [sigma_length]
    exact hi
  have hpow : (spiralpower f rbins θ).1.getD i 0 =
      npStd ((sigmacylindrical f rbins θ).2.2.getD i []) :=
    getD_map npStd _ i hlen [] 0
  exact ⟨hpow, fun c hc => by rw [hpow]; exact npStd_const _ c hc⟩

/-- C2 witness: the theorem applied to the empty snapshot on one radial and
one angular cell, whose density row is constantly zero, so the spiral power
at radial cell 0 vanishes. -/
theorem spiralpower_is_angular_std_witness :
    (spiralpower ⟨[], [], []⟩ [0, 1] (ThetaArg.edges [0, 1])).1.getD 0 0 = 0 := by
  refine (spiralpower_is_angular_std ⟨[], [], []⟩ [0, 1] (ThetaArg.edges [0, 1]) 0
    (by norm_num [nbins])).2 0 ?_
  intro x hx
  rw [sigma_eq, getD_range_map _ _ 0 (by norm_num [nbins]) []] at hx
  rcases List.mem_map.mp hx with ⟨j, _, rfl⟩
  simp [histEntry, rxyList, thetaList]

/-- C3. Angular-transform normalization: each coefficient of the spectral
grid of sigmafft is the raw real-input DFT coefficient (np.fft.rfft) of the
corresponding density row divided by (nm - 1), where nm, the spectral row
length, is floor(thetabins / 2) + 1 for thetabins angular cells. -/
theorem sigmafft_normalization (f : SimSnap) (rbins tedges : List ℝ) (i : ℕ)
    (hi : i < nbins rbins) :
    (sigmafft f rbins (ThetaArg.edges tedges)).2.2.getD i [] =
      (rfftRow ((sigmacylindrical f rbins (ThetaArg.edges tedges)).2.2.getD i [])).map
        (fun z => z / (((nbins tedges / 2 + 1 : ℕ) : ℂ) - 1)) ∧
    ((sigmafft f rbins (ThetaArg.edges tedges)).2.2.getD i []).length =
      nbins tedges / 2 + 1 ∧
    ∀ k < nbins tedges / 2 + 1,
      ((sigmafft f rbins (ThetaArg.edges tedges)).2.2.getD i []).getD k 0 =
        dftCoeff ((sigmacylindrical f rbins (ThetaArg.edges tedges)).2.2.getD i []) k /
          (((nbins tedges / 2 + 1 : ℕ) : ℂ) - 1) := by
  have hlen : i < (sigmacylindrical f rbins (ThetaArg.edges tedges)).2.2.length := by
    rw [sigma_length]
    exact hi
  have hrowlen : ((sigmacylindrical f rbins (ThetaArg.edges tedges)).2.2.getD i []).length =
      nbins tedges := sigma_row_length f rbins (ThetaArg.edges tedges) i hi
  have h1 : (sigmafft f rbins (ThetaArg.edges tedges)).2.2.getD i [] =
      (rfftRow ((sigmacylindrical f rbins (ThetaArg.edges tedges)).2.2.getD i [])).map
        (fun z => z / (((nbins tedges / 2 + 1 : ℕ) : ℂ) - 1)) :=
    getD_map _ _ i hlen [] []
  have hfftlen : (rfftRow ((sigmacylindrical f rbins (ThetaArg.edges tedges)).2.2.getD i [])).length =
      nbins tedges / 2 + 1 := by
    rw [rfftRow, List.length_map, List.length_range, hrowlen]
  refine ⟨h1, ?_, ?_⟩
  · rw [h1, List.length_map, hfftlen]
  · intro k hk
    have hk' : k < (rfftRow ((sigmacylindrical f rbins (ThetaArg.edges tedges)).2.2.getD i [])).length := by
      rw [hfftlen]
      exact hk
    rw [h1, getD_map _ _ k hk' 0 0]
    rw [rfftRow, getD_range_map _ _ k (by rw [hrowlen]; exact hk) 0]

/-- C3 witness: applying the theorem to the empty snapshot on one radial and
one angular cell, the spectral row length is floor(1 / 2) + 1 = 1. -/
theorem sigmafft_normalization_witness :
    ((sigmafft ⟨[], [], []⟩ [0, 1] (ThetaArg.edges [0, 1])).2.2.getD 0 []).length =
      nbins [0, 1] / 2 + 1 :=
  (sigmafft_normalization ⟨[], [], []⟩ [0, 1] [0, 1] 0 (by norm_num [nbins])).2.1

/-- The mode mesh of sigmafft: one row of mode indices 0 .. nm - 1 per
radial edge. -/
theorem sigmafft_mmesh (f : SimSnap) (redges : List ℝ) (θ : ThetaArg) :
    (sigmafft f redges θ).2.1 =
      redges.map fun _ => List.range (nbins (resolveTheta θ) / 2 + 1) := by
  rw [show (sigmafft f redges θ).2.1 =
      ((redges.map fun re => (resolveTheta θ).map fun _ => re).map fun row =>
        row.getD 0 0).map fun _ =>
          List.range (nbins (resolveTheta θ) / 2 + 1) from rfl,
    List.map_map, List.map_map]
  rfl

/-- The spectral grid of sigmafft, as the normalized row transform of the
density grid. -/
theorem sigmafft_S (f : SimSnap) (redges : List ℝ) (θ : ThetaArg) :
    (sigmafft f redges θ).2.2 =
      (sigmacylindrical f redges θ).2.2.map fun row =>
        (rfftRow row).map fun z =>
          z / (((nbins (resolveTheta θ) / 2 + 1 : ℕ) : ℂ) - 1) :=
  rfl

/-- Every spectral row has floor(thetabins / 2) + 1 coefficients. -/
theorem sigmafft_row_lengths (f : SimSnap) (redges : List ℝ) (θ : ThetaArg) :
    ∀ row ∈ (sigmafft f redges θ).2.2,
      row.length = nbins (resolveTheta θ) / 2 + 1 := by
  intro row hrow
  rw [sigmafft_S] at hrow
  rcases List.mem_map.mp hrow with ⟨srow, hs, rfl⟩
  rw [sigma_eq] at hs
  rcases List.mem_map.mp hs with ⟨i, _, rfl⟩
  simp [rfftRow]

/-- C4. Mode count of the power spectrum: powerspectrum invokes the pipeline
with thetabins = 2 mMax + 1; the spectral grid then has exactly mMax + 1
columns, the returned mode index array is the integers 0 .. mMax, and
power_per_mode[m] is the sum over radial cells of the squared magnitude of
spectral column m. -/
theorem powerspectrum_modes (f : SimSnap) (mMax : ℕ) (rbins : List ℝ)
    (hm : 1 ≤ mMax) (hr : 2 ≤ rbins.length) :
    (powerspectrum f mMax rbins).1 = List.range (mMax + 1) ∧
    (∀ row ∈ (sigmafft f rbins (ThetaArg.count (2 * mMax + 1))).2.2,
      row.length = mMax + 1) ∧
    (powerspectrum f mMax rbins).2.length = mMax + 1 ∧
    ∀ k < mMax + 1,
      (powerspectrum f mMax rbins).2.getD k 0 =
        ((sigmafft f rbins (ThetaArg.count (2 * mMax + 1))).2.2.map fun row =>
          Complex.abs (row.getD k 0) ^ 2).sum := by
  have hM : nbins (resolveTheta (ThetaArg.count (2 * mMax + 1))) = 2 * mMax + 1 := by
    simp [resolveTheta, nbins, linspace_length]
  have hnm : nbins (resolveTheta (ThetaArg.count (2 * mMax + 1))) / 2 + 1 = mMax + 1 := by
    rw [hM]
    omega
  obtain ⟨r0, rt, rfl⟩ : ∃ r0 rt, rbins = r0 :: rt := by
    cases rbins with
    | nil => simp at hr
    | cons a t => exact ⟨a, t, rfl⟩
  have hR : 0 < nbins (r0 :: rt) := by
    simp only [List.length_cons] at hr
    simp [nbins]
    omega
  have hS : (sigmafft f (r0 :: rt) (ThetaArg.count (2 * mMax + 1))).2.2 =
      (List.range (nbins (r0 :: rt))).map fun i =>
        (rfftRow ((List.range (nbins (resolveTheta (ThetaArg.count (2 * mMax + 1))))).map
          fun j => histEntry (rxyList f) (thetaList f) f.mass (r0 :: rt)
              (resolveTheta (ThetaArg.count (2 * mMax + 1))) i j /
            dAEntry (r0 :: rt) (resolveTheta (ThetaArg.count (2 * mMax + 1))) i j)).map
          fun z =>
            z / (((nbins (resolveTheta (ThetaArg.count (2 * mMax + 1))) / 2 + 1 : ℕ) : ℂ) - 1) := by
    rw [sigmafft_S, sigma_eq, List.map_map]
    rfl
  have hhead : ((sigmafft f (r0 :: rt) (ThetaArg.count (2 * mMax + 1))).2.2.headD []).length =
      mMax + 1 := by
    rw [hS, headD_range_map _ _ hR []]
    simp [rfftRow]
    omega
  refine ⟨?_, ?_, ?_, ?_⟩
  · rw [show (powerspectrum f mMax (r0 :: rt)).1 =
        (sigmafft f (r0 :: rt) (ThetaArg.count (2 * mMax + 1))).2.1.headD [] from rfl,
      sigmafft_mmesh, hnm]
    rfl
  · intro row hrow
    have := sigmafft_row_lengths f (r0 :: rt) (ThetaArg.count (2 * mMax + 1)) row hrow
    rw [hnm] at this
    exact this
  · rw [show (powerspectrum f mMax (r0 :: rt)).2 =
        (List.range (((sigmafft f (r0 :: rt) (ThetaArg.count (2 * mMax + 1))).2.2.headD []).length)).map
          (fun k => ((sigmafft f (r0 :: rt) (ThetaArg.count (2 * mMax + 1))).2.2.map fun row =>
            Complex.abs (row.getD k 0) ^ 2).sum) from rfl]
    simp only [List.length_map, List.length_range]
    exact hhead
  · intro k hk
    rw [show (powerspectrum f mMax (r0 :: rt)).2 =
        (List.range (((sigmafft f (r0 :: rt) (ThetaArg.count (2 * mMax + 1))).2.2.headD []).length)).map
          (fun k => ((sigmafft f (r0 :: rt) (ThetaArg.count (2 * mMax + 1))).2.2.map fun row =>
            Complex.abs (row.getD k 0) ^ 2).sum) from rfl,
      getD_range_map _ _ k (by rw [hhead]; exact hk) 0]

/-- C4 witness: the theorem applied at mMax = 1 on two radial edges; the
returned mode indices are 0 and 1. -/
theorem powerspectrum_modes_witness :
    (powerspectrum ⟨[], [], []⟩ 1 [0, 1]).1 = List.range 2 :=
  (powerspectrum_modes ⟨[], [], []⟩ 1 [0, 1] (by norm_num) (by norm_num)).1

/-- C5. Radial bin-edge construction: for every count n >= 1 and limits
0 < rmin < rmax, log spacing is the exponential of n + 1 linearly spaced
points between ln rmin and ln rmax, linear spacing is n + 1 linearly spaced
points between rmin and rmax, both return exactly n + 1 strictly increasing
edges, and concretely rmin = 1, rmax = 100, n = 2 under log spacing yields
the edges 1, 10, 100. -/
theorem radialBinEdges_spec (rmin rmax : ℝ) (n : ℕ) (hn : 1 ≤ n)
    (h0 : 0 < rmin) (hlt : rmin < rmax) :
    logspaceEdges rmin rmax n =
      (linspace (Real.log rmin) (Real.log rmax) (n + 1)).map Real.exp ∧
    linearEdges rmin rmax n = linspace rmin rmax (n + 1) ∧
    (logspaceEdges rmin rmax n).length = n + 1 ∧
    (linearEdges rmin rmax n).length = n + 1 ∧
    (logspaceEdges rmin rmax n).Chain' (· < ·) ∧
    (linearEdges rmin rmax n).Chain' (· < ·) ∧
    logspaceEdges 1 100 2 = [1, 10, 100] := by
  have hlog : Real.log rmin < Real.log rmax := Real.log_lt_log h0 hlt
  refine ⟨rfl, rfl, ?_, ?_, ?_, ?_, ?_⟩
  · simp [logspaceEdges, linspace_length]
  · simp [linearEdges, linspace_length]
  · unfold logspaceEdges
    rw [List.chain'_map]
    exact (linspace_chain' _ _ (n + 1) hlog (by omega)).imp
      fun a b h => Real.exp_lt_exp.mpr h
  · exact linspace_chain' _ _ (n + 1) hlt (by omega)
  · have L : Real.log 100 = 2 * Real.log 10 := by
      rw [show (100 : ℝ) = 10 ^ 2 by norm_num, Real.log_pow]
      push_cast
      ring
    have e10 : Real.exp (Real.log 10) = 10 := Real.exp_log (by norm_num)
    have e100 : Real.exp (Real.log 100) = 100 := Real.exp_log (by norm_num)
    unfold logspaceEdges linspace
    rw [show (2 : ℕ) + 1 = 3 from rfl]
    rw [show List.range 3 = [0, 1, 2] from rfl]
    simp only [List.map_cons, List.map_nil, Real.log_one]
    norm_num
    refine ⟨?_, ?_⟩
    · rw [show Real.log 100 / 2 = Real.log 10 by rw [L]; ring]
      exact e10
    · exact e100

/-- C5 witness: the theorem applied at the concrete scenario of the spec,
rmin = 1, rmax = 100, count = 2 under log spacing. -/
theorem radialBinEdges_spec_witness : logspaceEdges 1 100 2 = [1, 10, 100] :=
  (radialBinEdges_spec 1 100 2 (by norm_num) (by norm_num) (by norm_num)).2.2.2.2.2.2

/-- C6 counterexample: with binspacing "log", a bin count and a resolved
rmin of 0 (supplied through rlim), the driver does not fail: it returns an
edge sequence, refuting the claimed DomainError rejection. -/
theorem logspacing_nonpositive_rmin_counterexample :
    (spiralpower_t (fun _ => ⟨[], [], []⟩) id [SnapSource.snap ⟨[], [], []⟩]
      (RBinsArg.count 2) (ThetaArg.edges [0, 1]) "log" (some (0, 100))
      false).isOk = true := by
  rfl

/-- C6 amended: log-spacing edge construction never rejects its limits; for
every rmin (including rmin <= 0, where numpy's log merely produces
degenerate values) and every rlim, the driver with binspacing "log" and a
bin count returns an edge sequence rather than failing. -/
theorem logspacing_never_fails (loader : String → SimSnap)
    (centerdisk : SimSnap → SimSnap) (f0 : SnapSource) (rest : List SnapSource)
    (n : ℕ) (θ : ThetaArg) (rlim : Option (ℝ × ℝ)) (center : Bool) :
    (spiralpower_t loader centerdisk (f0 :: rest) (RBinsArg.count n) θ "log"
      rlim center).isOk = true := by
  cases rlim <;> simp [spiralpower_t, resolveRbins, Except.isOk, Except.toBool]

/-- C7. Unrecognized binspacing is rejected: for every binspacing other than
"log" and "linear", when rbins is a count the driver fails with the
ValueError naming the bad value, for every snapshot list, so before any
snapshot's power is computed. -/
theorem unrecognized_binspacing_rejected (loader : String → SimSnap)
    (centerdisk : SimSnap → SimSnap) (f0 : SnapSource) (rest : List SnapSource)
    (n : ℕ) (θ : ThetaArg) (rlim : Option (ℝ × ℝ)) (center : Bool) (s : String)
    (h1 : s ≠ "log") (h2 : s ≠ "linear") :
    spiralpower_t loader centerdisk (f0 :: rest) (RBinsArg.count n) θ s rlim
      center = Except.error ("Unrecognized binspacing " ++ s) := by
  cases rlim <;> simp [spiralpower_t, resolveRbins, h1, h2]

/-- C7 witness: the theorem applied at the concrete binspacing "cubic". -/
theorem unrecognized_binspacing_rejected_witness :
    spiralpower_t (fun _ => ⟨[], [], []⟩) id [SnapSource.snap ⟨[], [], []⟩]
      (RBinsArg.count 3) (ThetaArg.count 4) "cubic" none true =
      Except.error ("Unrecognized binspacing " ++ "cubic") :=
  unrecognized_binspacing_rejected (fun _ => ⟨[], [], []⟩) id
    (SnapSource.snap ⟨[], [], []⟩) [] 3 (ThetaArg.count 4) none true "cubic"
    (by decide) (by decide)

/-- C9 counterexample: stacking two power profiles carrying the differing
unit tags Msol and g surfaces no failure: it silently stamps the first
profile's tag onto the combined array, refuting the claimed UnitMismatch
error. -/
theorem unit_mismatch_counterexample :
    stackPower [⟨[1], some "Msol"⟩, ⟨[2], some "g"⟩] =
      { vals := [[1], [2]], units := some "Msol" } ∧ "Msol" ≠ "g" :=
  ⟨rfl, by decide⟩

/-- C9 amended: the stacking step performs no unit check: whenever the first
profile carries a unit tag, the combined array is stamped with exactly that
tag, whatever tags the remaining profiles carry. -/
theorem stacking_propagates_first_units (p0 : UnitArr) (rest : List UnitArr)
    (h : has_units p0 = true) :
    stackPower (p0 :: rest) =
      { vals := (p0 :: rest).map UnitArr.vals, units := p0.units } := by
  simp [stackPower, h]

/-- C9 amended witness: the amended theorem applied to two profiles with
differing unit tags. -/
theorem stacking_propagates_first_units_witness :
    stackPower [⟨[1], some "Msol"⟩, ⟨[2], some "g"⟩] =
      { vals := [[1], [2]], units := some "Msol" } :=
  stacking_propagates_first_units ⟨[1], some "Msol"⟩ [⟨[2], some "g"⟩] rfl


/-- The sum of a constant-one image counts the list's elements. -/
theorem sum_map_one {α : Type} (l : List α) : (l.map fun _ => (1 : ℕ)).sum = l.length := by
  induction l with
  | nil => rfl
  | cons a t ih => simp [ih, Nat.add_comm]

/-- C8. Fixed-edges-computed-once invariant: with a bin count and no rlim,
the driver succeeds, its returned radial edges are derived exactly once from
the first snapshot of the list, and every row of the returned power array,
the first included, is the spiralpower profile of its snapshot binned
against that same frozen edge sequence. -/
theorem frozen_edges_run (loader : String → SimSnap) (centerdisk : SimSnap → SimSnap)
    (f0 : SnapSource) (rest : List SnapSource) (n : ℕ) (θ : ThetaArg) (bs : String)
    (center : Bool) (hbs : bs = "log" ∨ bs = "linear") :
    ∃ out : DriverOut,
      spiralpower_t loader centerdisk (f0 :: rest) (RBinsArg.count n) θ bs none center =
        Except.ok out ∧
      out.redges = edgesFor bs (derivedLimits (resolveSrc loader f0)).1
        (derivedLimits (resolveSrc loader f0)).2 n ∧
      out.power.length = (f0 :: rest).length ∧
      ∀ i : ℕ, out.power[i]? = ((f0 :: rest)[i]?).map fun src =>
        (spiralpower (if center then centerdisk (resolveSrc loader src) else resolveSrc loader src)
          out.redges θ).1 := by
  rcases hbs with rfl | rfl
  · exact ⟨⟨(f0 :: rest).map fun src =>
        (spiralpower (if center then centerdisk (resolveSrc loader src) else resolveSrc loader src)
          (logspaceEdges (derivedLimits (resolveSrc loader f0)).1
            (derivedLimits (resolveSrc loader f0)).2 n) θ).1,
      logspaceEdges (derivedLimits (resolveSrc loader f0)).1
        (derivedLimits (resolveSrc loader f0)).2 n,
      loadCost f0 + ((f0 :: rest).map loadCost).sum⟩,
      rfl, rfl, by simp, fun i => by cases i <;> simp [List.getElem?_map]⟩
  · exact ⟨⟨(f0 :: rest).map fun src =>
        (spiralpower (if center then centerdisk (resolveSrc loader src) else resolveSrc loader src)
          (linearEdges (derivedLimits (resolveSrc loader f0)).1
            (derivedLimits (resolveSrc loader f0)).2 n) θ).1,
      linearEdges (derivedLimits (resolveSrc loader f0)).1
        (derivedLimits (resolveSrc loader f0)).2 n,
      loadCost f0 + ((f0 :: rest).map loadCost).sum⟩,
      rfl, rfl, by simp, fun i => by cases i <;> simp [List.getElem?_map]⟩

/-- C8 witness: the theorem applied to a concrete two-snapshot run under log
spacing. -/
theorem frozen_edges_run_witness :
    ∃ out : DriverOut,
      spiralpower_t (fun _ => ⟨[], [], []⟩) id
        [SnapSource.snap ⟨[1], [0], [1]⟩, SnapSource.snap ⟨[], [], []⟩]
        (RBinsArg.count 2) (ThetaArg.count 3) "log" none false = Except.ok out ∧
      out.redges = edgesFor "log"
        (derivedLimits (resolveSrc (fun _ => ⟨[], [], []⟩)
          (SnapSource.snap ⟨[1], [0], [1]⟩))).1
        (derivedLimits (resolveSrc (fun _ => ⟨[], [], []⟩)
          (SnapSource.snap ⟨[1], [0], [1]⟩))).2 2 ∧
      out.power.length = 2 ∧
      ∀ i : ℕ, out.power[i]? =
        (([SnapSource.snap ⟨[1], [0], [1]⟩, SnapSource.snap ⟨[], [], []⟩] :
            List SnapSource)[i]?).map fun src =>
          (spiralpower (if false then id (resolveSrc (fun _ => ⟨[], [], []⟩) src)
            else resolveSrc (fun _ => ⟨[], [], []⟩) src) out.redges (ThetaArg.count 3)).1 :=
  frozen_edges_run (fun _ => ⟨[], [], []⟩) id (SnapSource.snap ⟨[1], [0], [1]⟩)
    [SnapSource.snap ⟨[], [], []⟩] 2 (ThetaArg.count 3) "log" false (Or.inl rfl)

/-- C10. Limits are derived from the uncentered first snapshot: with a bin
count, no rlim, centering requested and a list of filenames, the frozen
radial edges come from the limits of the first file as loaded, before any
recentering (the centering collaborator is absent from the edge expression),
the loop recenters each loaded snapshot (row 0 shown), and the loader is
invoked K + 1 times for K snapshots, the first file being loaded twice. -/
theorem limits_from_uncentered_first (loader : String → SimSnap)
    (centerdisk : SimSnap → SimSnap) (name0 : String) (names : List String)
    (n : ℕ) (θ : ThetaArg) (bs : String) (hbs : bs = "log" ∨ bs = "linear") :
    ∃ out : DriverOut,
      spiralpower_t loader centerdisk ((name0 :: names).map SnapSource.file)
        (RBinsArg.count n) θ bs none true = Except.ok out ∧
      out.redges = edgesFor bs (derivedLimits (loader name0)).1
        (derivedLimits (loader name0)).2 n ∧
      out.loadCount = (name0 :: names).length + 1 ∧
      out.power[0]? = some (spiralpower (centerdisk (loader name0)) out.redges θ).1 := by
  have hcount : loadCost (SnapSource.file name0) +
      (((name0 :: names).map SnapSource.file).map loadCost).sum =
      (name0 :: names).length + 1 := by
    rw [List.map_map]
    have : (loadCost ∘ SnapSource.file) = fun _ : String => (1 : ℕ) := rfl
    rw [this, sum_map_one]
    simp [loadCost]
    omega
  rcases hbs with rfl | rfl
  · exact ⟨⟨((name0 :: names).map SnapSource.file).map fun src =>
        (spiralpower (if true then centerdisk (resolveSrc loader src) else resolveSrc loader src)
          (logspaceEdges (derivedLimits (loader name0)).1 (derivedLimits (loader name0)).2 n) θ).1,
      logspaceEdges (derivedLimits (loader name0)).1 (derivedLimits (loader name0)).2 n,
      loadCost (SnapSource.file name0) +
        (((name0 :: names).map SnapSource.file).map loadCost).sum⟩,
      rfl, rfl, hcount, by simp [resolveSrc]⟩
  · exact ⟨⟨((name0 :: names).map SnapSource.file).map fun src =>
        (spiralpower (if true then centerdisk (resolveSrc loader src) else resolveSrc loader src)
          (linearEdges (derivedLimits (loader name0)).1 (derivedLimits (loader name0)).2 n) θ).1,
      linearEdges (derivedLimits (loader name0)).1 (derivedLimits (loader name0)).2 n,
      loadCost (SnapSource.file name0) +
        (((name0 :: names).map SnapSource.file).map loadCost).sum⟩,
      rfl, rfl, hcount, by simp [resolveSrc]⟩

/-- C10 witness: the theorem applied to a concrete two-file run. -/
theorem limits_from_uncentered_first_witness :
    ∃ out : DriverOut,
      spiralpower_t (fun _ => ⟨[], [], []⟩) id
        (["a", "b"].map SnapSource.file) (RBinsArg.count 2) (ThetaArg.count 3)
        "linear" none true = Except.ok out ∧
      out.redges = edgesFor "linear"
        (derivedLimits ((fun _ : String => (⟨[], [], []⟩ : SimSnap)) "a")).1
        (derivedLimits ((fun _ : String => (⟨[], [], []⟩ : SimSnap)) "a")).2 2 ∧
      out.loadCount = (["a", "b"] : List String).length + 1 ∧
      out.power[0]? = some (spiralpower (id ((fun _ : String => (⟨[], [], []⟩ : SimSnap)) "a"))
        out.redges (ThetaArg.count 3)).1 :=
  limits_from_uncentered_first (fun _ => ⟨[], [], []⟩) id "a" ["b"] 2
    (ThetaArg.count 3) "linear" (Or.inr rfl)


/-- C1. Mass conservation of the binning stage: the density grid of
sigmacylindrical is the histogram mass grid divided entrywise by the cell
areas, and on every radial row whose cell areas are all nonzero, summing
density times area over the angular cells recovers the mass-weighted
histogram row: the total mass of the particles whose (r, theta) is bracketed
by radial cell i and by some angular cell. -/
theorem sigmacylindrical_mass_conservation (f : SimSnap) (redges tedges : List ℝ)
    (hr : redges.Chain' (· < ·)) (ht : tedges.Chain' (· < ·)) (i : ℕ)
    (hi : i < nbins redges)
    (harea : ∀ j < nbins tedges, dAEntry redges tedges i j ≠ 0) :
    (∀ j < nbins tedges,
      ((sigmacylindrical f redges (ThetaArg.edges tedges)).2.2.getD i []).getD j 0 =
        histEntry (rxyList f) (thetaList f) f.mass redges tedges i j /
          dAEntry redges tedges i j) ∧
    ((List.range (nbins tedges)).map fun j =>
      ((sigmacylindrical f redges (ThetaArg.edges tedges)).2.2.getD i []).getD j 0 *
        dAEntry redges tedges i j).sum =
      (((rxyList f).zip ((thetaList f).zip f.mass)).map fun p =>
        if binIndex redges p.1 = some i ∧ (binIndex tedges p.2.1).isSome then p.2.2
        else 0).sum ∧
    ((∀ y ∈ thetaList f, (binIndex tedges y).isSome) →
      (((rxyList f).zip ((thetaList f).zip f.mass)).map fun p =>
        if binIndex redges p.1 = some i ∧ (binIndex tedges p.2.1).isSome then p.2.2
        else 0).sum =
      (((rxyList f).zip ((thetaList f).zip f.mass)).map fun p =>
        if binIndex redges p.1 = some i then p.2.2 else 0).sum) := by
  have hrow : (sigmacylindrical f redges (ThetaArg.edges tedges)).2.2.getD i [] =
      (List.range (nbins tedges)).map fun j =>
        histEntry (rxyList f) (thetaList f) f.mass redges tedges i j /
          dAEntry redges tedges i j := by
    rw [sigma_eq, getD_range_map _ _ i hi []]
    rfl
  have hentry : ∀ j < nbins tedges,
      ((sigmacylindrical f redges (ThetaArg.edges tedges)).2.2.getD i []).getD j 0 =
        histEntry (rxyList f) (thetaList f) f.mass redges tedges i j /
          dAEntry redges tedges i j := by
    intro j hj
    rw [hrow, getD_range_map _ _ j hj 0]
  refine ⟨hentry, ?_, ?_⟩
  case refine_2 =>
    intro hall
    refine congrArg List.sum (List.map_congr_left ?_)
    intro p hp
    have hmem : p.2.1 ∈ thetaList f := by
      rcases p with ⟨pr, pt, pm⟩
      have h2 : (pt, pm) ∈ (thetaList f).zip f.mass := (List.of_mem_zip hp).2
      exact (List.of_mem_zip h2).1
    rw [hall p.2.1 hmem]
    simp
  calc ((List.range (nbins tedges)).map fun j =>
        ((sigmacylindrical f redges (ThetaArg.edges tedges)).2.2.getD i []).getD j 0 *
          dAEntry redges tedges i j).sum
      = ((List.range (nbins tedges)).map fun j =>
          histEntry (rxyList f) (thetaList f) f.mass redges tedges i j).sum := by
        refine congrArg List.sum (List.map_congr_left ?_)
        intro j hj
        have hjM : j < nbins tedges := List.mem_range.mp hj
        rw [hentry j hjM, div_mul_cancel₀ _ (harea j hjM)]
    _ = ∑ j ∈ Finset.range (nbins tedges),
          histEntry (rxyList f) (thetaList f) f.mass redges tedges i j :=
        sum_range_map _ _
    _ = ∑ j ∈ Finset.range (nbins tedges),
          (((rxyList f).zip ((thetaList f).zip f.mass)).map fun p =>
            if binIndex redges p.1 = some i ∧ binIndex tedges p.2.1 = some j then p.2.2
            else 0).sum := rfl
    _ = (((rxyList f).zip ((thetaList f).zip f.mass)).map fun p =>
          ∑ j ∈ Finset.range (nbins tedges),
            if binIndex redges p.1 = some i ∧ binIndex tedges p.2.1 = some j then p.2.2
            else 0).sum :=
        (sum_map_finset_sum _ _ _).symm
    _ = (((rxyList f).zip ((thetaList f).zip f.mass)).map fun p =>
          if binIndex redges p.1 = some i ∧ (binIndex tedges p.2.1).isSome then p.2.2
          else 0).sum := by
        refine congrArg List.sum (List.map_congr_left ?_)
        intro p _
        exact sum_ite_binIndex tedges p.2.1 p.2.2 _

/-- C1 witness: the theorem applied to the empty snapshot with radial edges
0, 1, 2 and angular edges 0, 1, at radial cell 0, whose single cell area is
one half. -/
theorem sigmacylindrical_mass_conservation_witness :
    ((List.range (nbins [0, 1])).map fun j =>
      ((sigmacylindrical ⟨[], [], []⟩ [0, 1, 2] (ThetaArg.edges [0, 1])).2.2.getD 0 []).getD j 0 *
        dAEntry [0, 1, 2] [0, 1] 0 j).sum =
      (((rxyList ⟨[], [], []⟩).zip ((thetaList ⟨[], [], []⟩).zip
          (SimSnap.mk [] [] []).mass)).map fun p =>
        if binIndex [0, 1, 2] p.1 = some 0 ∧ (binIndex [0, 1] p.2.1).isSome then p.2.2
        else 0).sum :=
  (sigmacylindrical_mass_conservation ⟨[], [], []⟩ [0, 1, 2] [0, 1]
    (by norm_num [List.chain'_cons]) (by norm_num [List.chain'_cons]) 0
    (by norm_num [nbins])
    (by
      intro j hj
      have hj0 : j = 0 := by
        simp [nbins] at hj
        omega
      subst hj0
      norm_num [dAEntry])).2.1

end Diskpy
